import Mathlib

/-!
Verification of the Enhanced Shopping List card
(`src/www/enhanced-shopping-list-card.js`).

Strings are modelled as `List Char`.  JavaScript's `String.prototype.trim`
and the regex classes `\s` and `.` are modelled by explicit character-set
predicates matching the ECMAScript definitions.  The card's mutable
instance state (`_items`, `_qtyTimers`, pending service calls) is modelled
as an explicit `CardState` record, and `setTimeout`-based debouncing as an
association list of pending writes plus an explicit "timer fires"
transition.
-/

namespace ESL

/-- ECMAScript WhiteSpace ∪ LineTerminator, the set used by `trim` and `\s`. -/
def isJsSpace (c : Char) : Bool :=
  c = ' ' || c = '\t' || c = '\n' || c = '\x0b' || c = '\x0c' || c = '\r' ||
  c = '\u00A0' || c = '\u1680' || ('\u2000' ≤ c && c ≤ '\u200A') ||
  c = '\u2028' || c = '\u2029' || c = '\u202F' || c = '\u205F' ||
  c = '\u3000' || c = '\uFEFF'

/-- ECMAScript LineTerminator: the characters the regex `.` does not match. -/
def isLineTerm (c : Char) : Bool :=
  c = '\n' || c = '\r' || c = '\u2028' || c = '\u2029'

/-- JavaScript `String.prototype.trim`. -/
def jsTrim (l : List Char) : List Char :=
  ((l.dropWhile isJsSpace).reverse.dropWhile isJsSpace).reverse

/-- Per-character lowercasing, modelling `String.prototype.toLowerCase`. -/
def toLowerL (l : List Char) : List Char := l.map Char.toLower

/-- Whether `l` begins with the pattern `p` (used to model JS `indexOf`). -/
def startsWith : List Char → List Char → Bool
  | _, [] => true
  | [], _ :: _ => false
  | c :: t, p :: ps => c = p && startsWith t ps

/-- The note separator `" // "`. -/
def noteSep : List Char := [' ', '/', '/', ' ']

/-- Split at the first occurrence of `" // "` (JS `indexOf` + two `substring`s):
`some (before, after)` when the separator occurs, `none` otherwise. -/
def splitNotes : List Char → Option (List Char × List Char)
  | [] => none
  | c :: t =>
    if startsWith (c :: t) noteSep then some ([], (c :: t).drop 4)
    else
      match splitNotes t with
      | some (pre, post) => some (c :: pre, post)
      | none => none

/-- Decimal digit character for `d < 10` (rendering of `${qty}`). -/
def digitChar : Nat → Char
  | 0 => '0' | 1 => '1' | 2 => '2' | 3 => '3' | 4 => '4'
  | 5 => '5' | 6 => '6' | 7 => '7' | 8 => '8' | _ => '9'

/-- Digit-by-digit decimal rendering, structurally recursive on a fuel bound
(the fuel is always sufficient, see `natToDec_eq`). -/
def natToDecAux : Nat → Nat → List Char
  | 0, _ => []
  | fuel + 1, n =>
    if n < 10 then [digitChar n]
    else natToDecAux fuel (n / 10) ++ [digitChar (n % 10)]

/-- Decimal rendering of a natural number, as JS template interpolation does. -/
def natToDec (n : Nat) : List Char := natToDecAux (n + 1) n

/-- Numeric value of a decimal digit character. -/
def decDigit (c : Char) : Nat := c.toNat - 48

/-- Value of a decimal digit string (JS `parseInt(s, 10)` on an all-digit string). -/
def decValue (ds : List Char) : Nat :=
  ds.foldl (fun a c => 10 * a + decDigit c) 0

/-- Model of matching the anchored suffix `\s*⟨op⟩(body)⟨cl⟩$` where the body
class `good` cannot match `cl`: after maximal whitespace the next character
must be `op`, and the rest must be a nonempty `good`-run closed by `cl` at the
very end.  Returns the captured body. -/
def bracketTail (op cl : Char) (good : Char → Bool) (rest : List Char) :
    Option (List Char) :=
  match rest.dropWhile isJsSpace with
  | [] => none
  | c :: t =>
    if c = op ∧ t.getLast? = some cl ∧ t.dropLast ≠ [] ∧
        (∀ x ∈ t.dropLast, good x = true) then
      some t.dropLast
    else none

/-- Model of the lazy-prefix regex `^(.+?)⟨suffix⟩`: the earliest nonempty
split whose prefix contains no line terminator (regex `.`) and whose remainder
matches the suffix pattern.  Returns `(prefix, captured body)`. -/
def tailSearch (tail : List Char → Option (List Char)) :
    List Char → Option (List Char × List Char)
  | [] => none
  | c :: rest =>
    if isLineTerm c then none
    else
      match tail rest with
      | some payload => some ([c], payload)
      | none =>
        match tailSearch tail rest with
        | some (pre, payload) => some (c :: pre, payload)
        | none => none

/-- Matching of the regex applied to extract a trailing `[category]` group,
returning `(name-part, category)`. -/
def catMatch : List Char → Option (List Char × List Char) :=
  tailSearch (bracketTail '[' ']' (fun c => c ≠ ']'))

/-- Matching of the regex applied to extract a trailing `(qty)` group,
returning `(name-part, digits)`. -/
def qtyMatch : List Char → Option (List Char × List Char) :=
  tailSearch (bracketTail '(' ')' (fun c => c.isDigit))

/-- The decoded item record `{name, qty, notes, category}`. -/
structure Parsed where
  name : List Char
  qty : Int
  notes : List Char
  category : List Char
deriving DecidableEq, Repr

/-- Stage 1 of `parseSummary`: extraction of the notes after `" // "`. -/
def stageNotes (s : List Char) : List Char × List Char :=
  match splitNotes s with
  | some (pre, post) => (jsTrim pre, jsTrim post)
  | none => (s, ([] : List Char))

/-- Stage 2 of `parseSummary`: extraction of a trailing `[category]` group. -/
def stageCat (n1 : List Char) : List Char × List Char :=
  match catMatch n1 with
  | some (pre, cat) => (jsTrim pre, jsTrim cat)
  | none => (n1, ([] : List Char))

/-- Stage 3 of `parseSummary`: extraction of a trailing `(qty)` group, with
the quantity defaulting to 1 when absent. -/
def stageQty (n2 : List Char) : List Char × Int :=
  match qtyMatch n2 with
  | some (pre, ds) => (jsTrim pre, (decValue ds : Int))
  | none => (n2, 1)

/-- Model of `parseSummary` from the card: strips `" // "` notes first, then a trailing
`[category]`, then a trailing `(qty)`; missing quantity defaults to 1. -/
def parseSummary (summary : List Char) : Parsed :=
  let p1 := stageNotes (jsTrim summary)
  let p2 := stageCat p1.1
  let p3 := stageQty p2.1
  ⟨p3.1, p3.2, p1.2, p2.2⟩

/-- Model of `formatSummary` from the card: renders `name (qty) [category] // notes`,
omitting the quantity when it is not greater than 1 and empty fields. -/
def formatSummary (name : List Char) (qty : Int) (notes category : List Char) :
    List Char :=
  let s := if 1 < qty then name ++ ' ' :: '(' :: (natToDec qty.toNat ++ [')']) else name
  let s2 := if category ≠ [] then s ++ ' ' :: '[' :: (category ++ [']']) else s
  if notes ≠ [] then s2 ++ noteSep ++ notes else s2

/-- First index at which `q` occurs as a contiguous run in `t`
(JS `indexOf` / `includes`). -/
def occurIdx : List Char → List Char → Option Nat
  | t, q =>
    if startsWith t q then some 0
    else
      match t with
      | [] => none
      | _ :: t' => (occurIdx t' q).map (· + 1)

/-- The greedy subsequence-scoring loop of `fuzzyScore`: walks `t`, consuming
characters of `q` in order; 10 points per match, +5 when the match is adjacent
to the previous one (`adj` records whether the previous position matched).
Returns the accumulated score and the unconsumed rest of `q`. -/
def sLoop : List Char → List Char → Bool → Int × List Char
  | [], q, _ => (0, q)
  | _ :: _, [], _ => (0, [])
  | c :: t, qc :: q', adj =>
    if c = qc then
      let r := sLoop t q' true
      (r.1 + 10 + (if adj then 5 else 0), r.2)
    else sLoop t (qc :: q') false

/-- Model of `fuzzyScore` from the card: contiguous-substring tier scores
`1000 - index`, otherwise the greedy subsequence tier, 0 when the query is not
fully consumed. -/
def fuzzyScore (query target : List Char) : Int :=
  let q := toLowerL query
  let t := toLowerL target
  match occurIdx t q with
  | some i => 1000 - (i : Int)
  | none =>
    let r := sLoop t q false
    if r.2 = [] then r.1 else 0

/-- A locally cached item, as built by `_fetchItems`. -/
structure Item where
  uid : List Char
  name : List Char
  quantity : Int
  notes : List Char
  category : List Char
  status : List Char
  summary : List Char
deriving DecidableEq, Repr

/-- A raw item as returned by the `todo/item/list` websocket call. -/
structure RawItem where
  uid : List Char
  summary : List Char
  status : List Char
deriving DecidableEq, Repr

/-- A remote `todo.*` service call issued by the card. -/
inductive ServiceCall where
  | addItem (summary : List Char)
  | updateRename (uid : List Char) (summary : List Char)
  | updateStatus (uid : List Char) (status : List Char)
  | removeItems (uids : List (List Char))
deriving DecidableEq, Repr

/-- The `"needs_action"` status string. -/
def needsAction : List Char := "needs_action".data

/-- The `"completed"` status string. -/
def completedStatus : List Char := "completed".data

/-- The card's mutable instance state: the local snapshot `_items`, the input
field, the `_qtyTimers` pending-write registry (uid to the summary the
scheduled callback will write), and the log of service calls issued so far. -/
structure CardState where
  items : List Item
  inputValue : List Char
  qtyTimers : List (List Char × List Char)
  serviceCalls : List ServiceCall
deriving DecidableEq, Repr

/-- Predicate for the `find` by uid in `_updateQuantity`/`_updateName`. -/
def uidMatch (item : Item) (i : Item) : Bool := i.uid = item.uid

/-- Rewrite the first element satisfying `p` (JS mutates the object returned
by `Array.prototype.find`). -/
def updateFirst (p : α → Bool) (f : α → α) : List α → List α
  | [] => []
  | x :: xs => if p x then f x :: xs else x :: updateFirst p f xs

/-- Effect of `clearTimeout` for `uid` followed by scheduling a fresh timer. -/
def setTimer (timers : List (List Char × List Char)) (uid s : List Char) :
    List (List Char × List Char) :=
  timers.filter (fun p => p.1 ≠ uid) ++ [(uid, s)]

/-- Pending write payload registered for `uid`, if any. -/
def lookupTimer (timers : List (List Char × List Char)) (uid : List Char) :
    Option (List Char) :=
  (timers.find? (fun p => p.1 = uid)).map (fun p => p.2)

/-- Live cached name when the snapshot has an entry with this uid, else the
caller-supplied one (JS `li ? li.name : item.name`). -/
def effName (st : CardState) (item : Item) : List Char :=
  match st.items.find? (uidMatch item) with
  | some li => li.name
  | none => item.name

/-- Live cached notes when present (JS `li ? li.notes : (item.notes || "")`). -/
def effNotes (st : CardState) (item : Item) : List Char :=
  match st.items.find? (uidMatch item) with
  | some li => li.notes
  | none => item.notes

/-- Live cached category when present (JS style fallback to the argument). -/
def effCat (st : CardState) (item : Item) : List Char :=
  match st.items.find? (uidMatch item) with
  | some li => li.category
  | none => item.category

/-- Model of `_updateQuantity(item, newQty)`: clamps to 1, optimistically patches the
first snapshot entry with this uid, and (re)schedules the debounced write of
the re-encoded summary; the pending service-call log is untouched. -/
def updateQuantity (st : CardState) (item : Item) (newQty : Int) : CardState :=
  let q := max 1 newQty
  let s := formatSummary (effName st item) q (effNotes st item) (effCat st item)
  { st with
    items := updateFirst (uidMatch item)
      (fun i => { i with quantity := q, summary := s }) st.items
    qtyTimers := setTimer st.qtyTimers item.uid s }

/-- The debounce timer for `uid` fires: the registry entry is deleted and the
captured `update_item` rename call is issued. -/
def fireQtyTimer (st : CardState) (uid : List Char) : CardState :=
  match lookupTimer st.qtyTimers uid with
  | some s =>
    { st with
      qtyTimers := st.qtyTimers.filter (fun p => p.1 ≠ uid)
      serviceCalls := st.serviceCalls ++ [ServiceCall.updateRename uid s] }
  | none => st

/-- Model of `_updateName(item, newName)`: immediate rename write; the category comes
from the live snapshot entry, quantity and notes from the `item` argument. -/
def updateName (st : CardState) (item : Item) (newName : List Char) : CardState :=
  { st with
    serviceCalls := st.serviceCalls ++
      [ServiceCall.updateRename item.uid
        (formatSummary (jsTrim newName) item.quantity item.notes (effCat st item))] }

/-- The case-insensitive active-duplicate test in `_addCurrentInput`. -/
def activeMatch (name : List Char) (i : Item) : Bool :=
  i.status = needsAction && toLowerL i.name = toLowerL name

/-- The case-insensitive completed-duplicate test in `_addCurrentInput`. -/
def completedMatch (name : List Char) (i : Item) : Bool :=
  i.status = completedStatus && toLowerL i.name = toLowerL name

/-- Model of `_addCurrentInput()`: empty trimmed input is a no-op; an active name match
bumps the quantity via the debounced path; a completed match is reactivated by
an immediate status write; otherwise a new item is added with quantity 1. -/
def addCurrentInput (st : CardState) : CardState :=
  let name := jsTrim st.inputValue
  if name = [] then st
  else
    match st.items.find? (activeMatch name) with
    | some a => { updateQuantity st a (a.quantity + 1) with inputValue := [] }
    | none =>
      match st.items.find? (completedMatch name) with
      | some d =>
        { st with
          serviceCalls := st.serviceCalls ++
            [ServiceCall.updateStatus d.uid needsAction]
          inputValue := [] }
      | none =>
        { st with
          serviceCalls := st.serviceCalls ++
            [ServiceCall.addItem (formatSummary name 1 [] [])]
          inputValue := [] }

/-- Decoding of one raw list entry in `_fetchItems`. -/
def decodeRaw (r : RawItem) : Item :=
  let p := parseSummary r.summary
  ⟨r.uid, p.name, p.qty, p.notes, p.category, r.status, r.summary⟩

/-- Model of `_fetchItems()`: on a successful list call the snapshot is replaced
wholesale by the decoded remote items; a rejection is caught and logged, so
the state is returned unchanged and no error escapes. -/
def fetchItems (st : CardState) (res : Except (List Char) (List RawItem)) :
    CardState :=
  match res with
  | Except.ok raws => { st with items := raws.map decodeRaw }
  | Except.error _ => st

/-- A burst of `setQuantity` calls for one item inside a debounce window. -/
def applyQuantities (st : CardState) (item : Item) (vs : List Int) : CardState :=
  vs.foldl (fun s v => updateQuantity s item v) st

/-- The ten decimal digit characters. -/
def digList : List Char := ['0', '1', '2', '3', '4', '5', '6', '7', '8', '9']

/-- Field text free of the structural codec characters. -/
def specialFree (l : List Char) : Prop :=
  ∀ c ∈ l, c ≠ '(' ∧ c ≠ ')' ∧ c ≠ '[' ∧ c ≠ ']' ∧ c ≠ '/'

/-- Well-formedness of an item record for the codec round trip: nonempty
name, all string fields stable under trimming, name and category free of the
structural characters, no line terminator in the name, quantity at least 1. -/
def GoodFields (name : List Char) (qty : Int) (notes category : List Char) :
    Prop :=
  name ≠ [] ∧
  jsTrim name = name ∧ jsTrim notes = notes ∧ jsTrim category = category ∧
  specialFree name ∧ specialFree category ∧
  (∀ c ∈ name, isLineTerm c = false) ∧
  1 ≤ qty

instance (name : List Char) (qty : Int) (notes category : List Char) :
    Decidable (GoodFields name qty notes category) := by
  unfold GoodFields specialFree
  infer_instance

end ESL

namespace ESL

/-! ### Generic helpers about the state-machine primitives -/

theorem find?_updateFirst {α : Type} (p : α → Bool) (f : α → α) (l : List α)
    (hpf : ∀ x, p x = true → p (f x) = true) :
    (updateFirst p f l).find? p = (l.find? p).map f := by
  induction l with
  | nil => rfl
  | cons x xs ih =>
    by_cases h : p x = true
    · rw [updateFirst, if_pos h, List.find?_cons_of_pos _ (hpf x h),
        List.find?_cons_of_pos _ h, Option.map_some']
    · rw [updateFirst, if_neg h, List.find?_cons_of_neg _ h,
        List.find?_cons_of_neg _ h, ih]

theorem find?_filter_ne (T : List (List Char × List Char)) (u : List Char) :
    (T.filter (fun p => p.1 ≠ u)).find? (fun p => p.1 = u) = none := by
  rw [List.find?_eq_none]
  intro x hx
  have hmem := (List.mem_filter.mp hx).2
  simp only [ne_eq, decide_not, Bool.not_eq_true', decide_eq_false_iff_not] at hmem
  simp [hmem]

theorem lookupTimer_setTimer (T : List (List Char × List Char)) (u s : List Char) :
    lookupTimer (setTimer T u s) u = some s := by
  unfold lookupTimer setTimer
  rw [List.find?_append, find?_filter_ne]
  simp [List.find?]

theorem countP_setTimer (T : List (List Char × List Char)) (u s : List Char) :
    (setTimer T u s).countP (fun p => p.1 = u) = 1 := by
  unfold setTimer
  rw [List.countP_append]
  have h0 : (T.filter (fun p => p.1 ≠ u)).countP (fun p => p.1 = u) = 0 := by
    rw [List.countP_eq_zero]
    intro x hx
    have hmem := (List.mem_filter.mp hx).2
    simp only [ne_eq, decide_not, Bool.not_eq_true', decide_eq_false_iff_not] at hmem
    simp [hmem]
  rw [h0]
  simp [List.countP, List.countP.go]

theorem setTimer_setTimer (T : List (List Char × List Char)) (u s1 s2 : List Char) :
    setTimer (setTimer T u s1) u s2 = setTimer T u s2 := by
  unfold setTimer
  rw [List.filter_append]
  have h1 : ∀ l : List (List Char × List Char),
      (l.filter (fun p => p.1 ≠ u)).filter (fun p => p.1 ≠ u) =
        l.filter (fun p => p.1 ≠ u) := by
    intro l
    induction l with
    | nil => rfl
    | cons x xs ih =>
      by_cases hx : x.1 = u
      · simp [List.filter, hx, ih]
      · simp [List.filter, hx, ih]
  rw [h1]
  simp [List.filter]

end ESL

namespace ESL

/-! ### Facts about `updateQuantity` -/

theorem uidMatch_patch (item i : Item) (q : Int) (s : List Char)
    (h : uidMatch item i = true) :
    uidMatch item { i with quantity := q, summary := s } = true := h

theorem updateQuantity_serviceCalls (st : CardState) (item : Item) (v : Int) :
    (updateQuantity st item v).serviceCalls = st.serviceCalls := rfl

theorem updateQuantity_qtyTimers (st : CardState) (item : Item) (v : Int) :
    (updateQuantity st item v).qtyTimers =
      setTimer st.qtyTimers item.uid
        (formatSummary (effName st item) (max 1 v) (effNotes st item)
          (effCat st item)) := rfl

theorem find?_updateQuantity (st : CardState) (item : Item) (v : Int) :
    (updateQuantity st item v).items.find? (uidMatch item) =
      (st.items.find? (uidMatch item)).map
        (fun i => { i with
          quantity := max 1 v
          summary := formatSummary (effName st item) (max 1 v)
            (effNotes st item) (effCat st item) }) := by
  unfold updateQuantity
  exact find?_updateFirst _ _ _ (fun x hx => uidMatch_patch item x _ _ hx)

theorem effName_updateQuantity (st : CardState) (item : Item) (v : Int) :
    effName (updateQuantity st item v) item = effName st item := by
  unfold effName
  rw [find?_updateQuantity]
  cases st.items.find? (uidMatch item) <;> rfl

theorem effNotes_updateQuantity (st : CardState) (item : Item) (v : Int) :
    effNotes (updateQuantity st item v) item = effNotes st item := by
  unfold effNotes
  rw [find?_updateQuantity]
  cases st.items.find? (uidMatch item) <;> rfl

theorem effCat_updateQuantity (st : CardState) (item : Item) (v : Int) :
    effCat (updateQuantity st item v) item = effCat st item := by
  unfold effCat
  rw [find?_updateQuantity]
  cases st.items.find? (uidMatch item) <;> rfl

/-! ### Facts about a burst of quantity edits -/

theorem applyQuantities_cons (st : CardState) (item : Item) (v : Int)
    (vs : List Int) :
    applyQuantities st item (v :: vs) =
      applyQuantities (updateQuantity st item v) item vs := rfl

theorem applyQuantities_serviceCalls (st : CardState) (item : Item)
    (vs : List Int) :
    (applyQuantities st item vs).serviceCalls = st.serviceCalls := by
  induction vs generalizing st with
  | nil => rfl
  | cons v vs ih => rw [applyQuantities_cons, ih, updateQuantity_serviceCalls]

theorem effName_applyQuantities (st : CardState) (item : Item) (vs : List Int) :
    effName (applyQuantities st item vs) item = effName st item := by
  induction vs generalizing st with
  | nil => rfl
  | cons v vs ih => rw [applyQuantities_cons, ih, effName_updateQuantity]

theorem effNotes_applyQuantities (st : CardState) (item : Item) (vs : List Int) :
    effNotes (applyQuantities st item vs) item = effNotes st item := by
  induction vs generalizing st with
  | nil => rfl
  | cons v vs ih => rw [applyQuantities_cons, ih, effNotes_updateQuantity]

theorem effCat_applyQuantities (st : CardState) (item : Item) (vs : List Int) :
    effCat (applyQuantities st item vs) item = effCat st item := by
  induction vs generalizing st with
  | nil => rfl
  | cons v vs ih => rw [applyQuantities_cons, ih, effCat_updateQuantity]

theorem applyQuantities_qtyTimers (st : CardState) (item : Item)
    (vs : List Int) (v : Int) :
    (applyQuantities st item (vs ++ [v])).qtyTimers =
      setTimer st.qtyTimers item.uid
        (formatSummary (effName st item) (max 1 v) (effNotes st item)
          (effCat st item)) := by
  induction vs generalizing st with
  | nil => rfl
  | cons v0 vs ih =>
    rw [List.cons_append, applyQuantities_cons, ih,
      effName_updateQuantity, effNotes_updateQuantity, effCat_updateQuantity,
      updateQuantity_qtyTimers, setTimer_setTimer]

end ESL

namespace ESL

theorem fireQtyTimer_of_lookup (st : CardState) (uid s : List Char)
    (h : lookupTimer st.qtyTimers uid = some s) :
    fireQtyTimer st uid =
      { st with
        qtyTimers := st.qtyTimers.filter (fun p => p.1 ≠ uid)
        serviceCalls := st.serviceCalls ++ [ServiceCall.updateRename uid s] } := by
  unfold fireQtyTimer
  rw [h]

theorem effCat_eq_of_find? (st : CardState) (item li : Item)
    (h : st.items.find? (uidMatch item) = some li) :
    effCat st item = li.category := by
  unfold effCat
  rw [h]

/-- C2: within one debounce window, a burst of `setQuantity` calls on the same
item issues no remote write while the burst is running, leaves exactly one
pending timer for that item whose payload encodes the clamped value of the
last call, and when the timer fires exactly one `update_item` rename call is
issued, carrying that last value — never an intermediate one. -/
theorem claim2_debounce_coalesce (st : CardState) (item : Item)
    (vs : List Int) (v : Int) :
    (applyQuantities st item (vs ++ [v])).serviceCalls = st.serviceCalls
    ∧ lookupTimer (applyQuantities st item (vs ++ [v])).qtyTimers item.uid =
        some (formatSummary (effName st item) (max 1 v) (effNotes st item)
          (effCat st item))
    ∧ (applyQuantities st item (vs ++ [v])).qtyTimers.countP
        (fun p => p.1 = item.uid) = 1
    ∧ (fireQtyTimer (applyQuantities st item (vs ++ [v])) item.uid).serviceCalls =
        st.serviceCalls ++ [ServiceCall.updateRename item.uid
          (formatSummary (effName st item) (max 1 v) (effNotes st item)
            (effCat st item))] := by
  have hTimers := applyQuantities_qtyTimers st item vs v
  have hLook : lookupTimer (applyQuantities st item (vs ++ [v])).qtyTimers item.uid =
      some (formatSummary (effName st item) (max 1 v) (effNotes st item)
        (effCat st item)) := by
    rw [hTimers, lookupTimer_setTimer]
  refine ⟨applyQuantities_serviceCalls st item _, hLook, ?_, ?_⟩
  · rw [hTimers, countP_setTimer]
  · rw [fireQtyTimer_of_lookup _ _ _ hLook]
    simp [applyQuantities_serviceCalls]

/-- C8: fetchAll is atomic with respect to failure — a successful list call
replaces the whole local snapshot with the decoded remote items, and a failed
one (the rejection is caught inside the engine) leaves the state completely
unchanged. -/
theorem claim8_fetch_atomic :
    (∀ (st : CardState) (e : List Char), fetchItems st (Except.error e) = st) ∧
    (∀ (st : CardState) (raws : List RawItem),
      fetchItems st (Except.ok raws) = { st with items := raws.map decodeRaw }) :=
  ⟨fun _ _ => rfl, fun _ _ => rfl⟩

/-- C9: setQuantity clamps the requested value to a minimum of 1 — for any
requested value at most 1 the optimistic local quantity and the scheduled
remote payload both carry quantity 1. -/
theorem claim9_clamp (st : CardState) (item : Item) (v : Int) (hv : v ≤ 1) :
    (updateQuantity st item v).qtyTimers =
      setTimer st.qtyTimers item.uid
        (formatSummary (effName st item) 1 (effNotes st item) (effCat st item))
    ∧ (updateQuantity st item v).items.find? (uidMatch item) =
        (st.items.find? (uidMatch item)).map
          (fun i => { i with
            quantity := 1
            summary := formatSummary (effName st item) 1 (effNotes st item)
              (effCat st item) }) := by
  have hm : max 1 v = 1 := by omega
  constructor
  · rw [updateQuantity_qtyTimers, hm]
  · rw [find?_updateQuantity, hm]

/-- Witness for C9 at a concrete input: requesting quantity 0 for a cached
item schedules a write whose payload encodes quantity 1. -/
theorem claim9_clamp_witness :
    lookupTimer (updateQuantity
      ⟨[⟨"u".data, "Milk".data, 3, [], [], needsAction, "Milk (3)".data⟩],
        [], [], []⟩
      ⟨"u".data, "Milk".data, 3, [], [], needsAction, "Milk (3)".data⟩
      0).qtyTimers "u".data = some "Milk".data := by
  have h := claim9_clamp
    ⟨[⟨"u".data, "Milk".data, 3, [], [], needsAction, "Milk (3)".data⟩],
      [], [], []⟩
    ⟨"u".data, "Milk".data, 3, [], [], needsAction, "Milk (3)".data⟩
    0 (by decide)
  rw [h.1]
  decide

/-- C10: an input that trims to the empty string makes add-or-bump a complete
no-op — no remote call is issued and the snapshot, the timers and the rest of
the state are unchanged. -/
theorem claim10_empty_noop (st : CardState) (h : jsTrim st.inputValue = []) :
    addCurrentInput st = st := by
  simp [addCurrentInput, h]

/-- Witness for C10 at a concrete input: a whitespace-only input field. -/
theorem claim10_empty_noop_witness :
    addCurrentInput ⟨[], "  ".data, [], []⟩ = ⟨[], "  ".data, [], []⟩ :=
  claim10_empty_noop ⟨[], "  ".data, [], []⟩ (by decide)

/-- C4 (amended): rename re-encodes the summary using the live cached value
for the category, but the quantity and the notes are taken from the
caller-supplied `item` argument, not from the live snapshot entry. -/
theorem claim4_rename_fields (st : CardState) (item li : Item)
    (newName : List Char)
    (h : st.items.find? (uidMatch item) = some li) :
    (updateName st item newName).serviceCalls =
      st.serviceCalls ++ [ServiceCall.updateRename item.uid
        (formatSummary (jsTrim newName) item.quantity item.notes li.category)] := by
  unfold updateName
  rw [effCat_eq_of_find? st item li h]

/-- Witness for C4's amended statement at a concrete input. -/
theorem claim4_rename_fields_witness :
    (updateName
      ⟨[⟨"u1".data, "Milk".data, 5, "fresh".data, "Dairy".data, needsAction,
        "Milk (5) [Dairy] // fresh".data⟩], [], [], []⟩
      ⟨"u1".data, "Milk".data, 1, [], "Dairy".data, needsAction, "Milk".data⟩
      "New".data).serviceCalls =
      [ServiceCall.updateRename "u1".data
        (formatSummary "New".data 1 [] "Dairy".data)] := by
  rw [claim4_rename_fields _ _
    ⟨"u1".data, "Milk".data, 5, "fresh".data, "Dairy".data, needsAction,
      "Milk (5) [Dairy] // fresh".data⟩ _ (by decide)]
  decide

/-- Counterexample for C4 as stated: with a live snapshot entry holding
quantity 5 and notes "fresh", renaming through a stale `item` argument with
quantity 1 and empty notes writes a summary built from the stale quantity and
notes (only the category is read from the live entry), which differs from the
summary built from the live values. -/
theorem claim4_counterexample :
    (updateName
      ⟨[⟨"u1".data, "Milk".data, 5, "fresh".data, "Dairy".data, needsAction,
        "Milk (5) [Dairy] // fresh".data⟩], [], [], []⟩
      ⟨"u1".data, "Milk".data, 1, [], "Dairy".data, needsAction, "Milk".data⟩
      "New".data).serviceCalls =
      [ServiceCall.updateRename "u1".data
        (formatSummary "New".data 1 [] "Dairy".data)]
    ∧ formatSummary "New".data 1 [] "Dairy".data ≠
        formatSummary "New".data 5 "fresh".data "Dairy".data := by
  constructor
  · decide
  · decide

end ESL

namespace ESL

/-- C3: for a non-empty trimmed input, add-or-bump takes exactly one of three
branches chosen by case-insensitive name lookup: an active match is bumped by
one through the debounced quantity path (no immediate call; firing the timer
issues exactly one rename write and no add), a completed match is reactivated
by one immediate status write, and otherwise one immediate add with
quantity 1 is issued. -/
theorem claim3_smart_add (st : CardState) (h : jsTrim st.inputValue ≠ []) :
    (∀ a, st.items.find? (activeMatch (jsTrim st.inputValue)) = some a →
      0 ≤ a.quantity →
      addCurrentInput st =
        { updateQuantity st a (a.quantity + 1) with inputValue := [] }
      ∧ (addCurrentInput st).serviceCalls = st.serviceCalls
      ∧ lookupTimer (addCurrentInput st).qtyTimers a.uid =
          some (formatSummary (effName st a) (a.quantity + 1) (effNotes st a)
            (effCat st a))
      ∧ (fireQtyTimer (addCurrentInput st) a.uid).serviceCalls =
          st.serviceCalls ++ [ServiceCall.updateRename a.uid
            (formatSummary (effName st a) (a.quantity + 1) (effNotes st a)
              (effCat st a))])
    ∧ (st.items.find? (activeMatch (jsTrim st.inputValue)) = none →
       ∀ d, st.items.find? (completedMatch (jsTrim st.inputValue)) = some d →
        addCurrentInput st =
          { st with
            serviceCalls := st.serviceCalls ++
              [ServiceCall.updateStatus d.uid needsAction]
            inputValue := [] })
    ∧ (st.items.find? (activeMatch (jsTrim st.inputValue)) = none →
       st.items.find? (completedMatch (jsTrim st.inputValue)) = none →
        addCurrentInput st =
          { st with
            serviceCalls := st.serviceCalls ++
              [ServiceCall.addItem (formatSummary (jsTrim st.inputValue) 1 [] [])]
            inputValue := [] }) := by
  refine ⟨?_, ?_, ?_⟩
  · intro a ha hq
    have hmax : max 1 (a.quantity + 1) = a.quantity + 1 := by omega
    have hst : addCurrentInput st =
        { updateQuantity st a (a.quantity + 1) with inputValue := [] } := by
      simp [addCurrentInput, h, ha]
    have hLook : lookupTimer (addCurrentInput st).qtyTimers a.uid =
        some (formatSummary (effName st a) (a.quantity + 1) (effNotes st a)
          (effCat st a)) := by
      rw [hst]
      show lookupTimer (updateQuantity st a (a.quantity + 1)).qtyTimers a.uid = _
      rw [updateQuantity_qtyTimers, hmax, lookupTimer_setTimer]
    refine ⟨hst, ?_, hLook, ?_⟩
    · rw [hst]
      exact updateQuantity_serviceCalls st a (a.quantity + 1)
    · rw [fireQtyTimer_of_lookup _ _ _ hLook, hst]
      show (updateQuantity st a (a.quantity + 1)).serviceCalls ++ _ = _
      rw [updateQuantity_serviceCalls]
  · intro ha d hd
    simp [addCurrentInput, h, ha, hd]
  · intro ha hd
    simp [addCurrentInput, h, ha, hd]

/-- Witness for C3 at the spec's concrete scenario: with an active item
"Milk" of quantity 1 and input "milk", no immediate call is issued, and
firing the debounced timer issues exactly one rename write encoding
quantity 2 — zero add calls. -/
theorem claim3_smart_add_witness :
    (addCurrentInput
      ⟨[⟨"1".data, "Milk".data, 1, [], [], needsAction, "Milk".data⟩],
        "milk".data, [], []⟩).serviceCalls = []
    ∧ (fireQtyTimer (addCurrentInput
        ⟨[⟨"1".data, "Milk".data, 1, [], [], needsAction, "Milk".data⟩],
          "milk".data, [], []⟩) "1".data).serviceCalls =
      [ServiceCall.updateRename "1".data "Milk (2)".data] := by
  have h3 := (claim3_smart_add
    ⟨[⟨"1".data, "Milk".data, 1, [], [], needsAction, "Milk".data⟩],
      "milk".data, [], []⟩ (by decide)).1
    ⟨"1".data, "Milk".data, 1, [], [], needsAction, "Milk".data⟩
    (by decide) (by decide)
  constructor
  · rw [h3.2.1]
  · rw [h3.2.2.2]
    decide

end ESL

namespace ESL

/-! ### Facts about the fuzzy matcher -/

theorem startsWith_length (l q : List Char) (h : startsWith l q = true) :
    q.length ≤ l.length := by
  induction q generalizing l with
  | nil => simp
  | cons qc qs ih =>
    cases l with
    | nil => simp [startsWith] at h
    | cons c t =>
      simp only [startsWith, Bool.and_eq_true] at h
      simpa using ih t h.2

theorem startsWith_sublist (l q : List Char) (h : startsWith l q = true) :
    List.Sublist q l := by
  induction q generalizing l with
  | nil => exact List.nil_sublist l
  | cons qc qs ih =>
    cases l with
    | nil => simp [startsWith] at h
    | cons c t =>
      simp only [startsWith, Bool.and_eq_true, decide_eq_true_eq] at h
      rw [← h.1]
      exact List.Sublist.cons₂ c (ih t h.2)

theorem occurIdx_nil_pattern (t : List Char) : occurIdx t [] = some 0 := by
  cases t <;> simp [occurIdx, startsWith]

theorem occurIdx_some_le (t q : List Char) (i : Nat)
    (h : occurIdx t q = some i) : i + q.length ≤ t.length := by
  induction t generalizing i with
  | nil =>
    rw [occurIdx] at h
    by_cases hs : startsWith [] q = true
    · rw [if_pos hs] at h
      cases q with
      | nil => simp at h; omega
      | cons a b => simp [startsWith] at hs
    · rw [if_neg hs] at h
      simp at h
  | cons c t ih =>
    rw [occurIdx] at h
    by_cases hs : startsWith (c :: t) q = true
    · rw [if_pos hs] at h
      have := startsWith_length _ _ hs
      simp at h
      omega
    · rw [if_neg hs] at h
      simp only [Option.map_eq_some'] at h
      obtain ⟨j, hj, hji⟩ := h
      have := ih j hj
      simp
      omega

theorem occurIdx_sublist (t q : List Char) (i : Nat)
    (h : occurIdx t q = some i) : List.Sublist q t := by
  induction t generalizing i with
  | nil =>
    rw [occurIdx] at h
    by_cases hs : startsWith [] q = true
    · exact startsWith_sublist _ _ hs
    · rw [if_neg hs] at h
      simp at h
  | cons c t ih =>
    rw [occurIdx] at h
    by_cases hs : startsWith (c :: t) q = true
    · exact startsWith_sublist _ _ hs
    · rw [if_neg hs] at h
      simp only [Option.map_eq_some'] at h
      obtain ⟨j, hj, _⟩ := h
      exact (ih j hj).cons c

theorem sLoop_nonneg (t q : List Char) (adj : Bool) : 0 ≤ (sLoop t q adj).1 := by
  induction t generalizing q adj with
  | nil => simp [sLoop]
  | cons c t ih =>
    cases q with
    | nil => simp [sLoop]
    | cons qc q' =>
      by_cases h : c = qc
      · simp only [sLoop, if_pos h]
        have := ih q' true
        cases adj <;> simp <;> omega
      · simpa [sLoop, h] using ih (qc :: q') false

theorem sLoop_lower (t q : List Char) (adj : Bool) :
    10 * ((q.length : Int) - ((sLoop t q adj).2.length : Int)) ≤
      (sLoop t q adj).1 := by
  induction t generalizing q adj with
  | nil => simp [sLoop]
  | cons c t ih =>
    cases q with
    | nil => simp [sLoop]
    | cons qc q' =>
      by_cases h : c = qc
      · simp only [sLoop, if_pos h]
        have h1 := ih q' true
        have h2 : (0 : Int) ≤ if adj then 5 else 0 := by
          cases adj <;> simp
        simp only [List.length_cons]
        push_cast
        omega
      · simpa [sLoop, h] using ih (qc :: q') false

theorem sLoop_upper (t q : List Char) (adj : Bool) :
    ((sLoop t q adj).2 = q ∧ (sLoop t q adj).1 = 0) ∨
      (sLoop t q adj).1 ≤
        15 * ((q.length : Int) - ((sLoop t q adj).2.length : Int)) -
          (if adj then 0 else 5) := by
  induction t generalizing q adj with
  | nil => exact Or.inl ⟨rfl, rfl⟩
  | cons c t ih =>
    cases q with
    | nil => exact Or.inl ⟨rfl, rfl⟩
    | cons qc q' =>
      by_cases h : c = qc
      · right
        simp only [sLoop, if_pos h, List.length_cons]
        rcases ih q' true with ⟨hr, hs⟩ | hb
        · rw [hr, hs]
          cases adj with
          | false => simp
          | true => simp
        · simp only [if_pos rfl] at hb ⊢
          have hlen : ((sLoop t q' true).2.length : Int) ≤ q'.length := by
            have h1 := sLoop_lower t q' true
            have h2 := sLoop_nonneg t q' true
            omega
          cases adj with
          | false =>
            simp only [if_neg Bool.false_ne_true]
            push_cast
            omega
          | true =>
            simp only [if_pos rfl]
            push_cast
            omega
      · rcases ih (qc :: q') false with ⟨hr, hs⟩ | hb
        · left
          simpa [sLoop, h] using ⟨hr, hs⟩
        · right
          cases adj with
          | false => simpa [sLoop, h] using hb
          | true =>
            simp only [sLoop, if_neg h]
            simp only [if_pos] at hb ⊢
            simp at hb ⊢
            omega

theorem sLoop_split (t q : List Char) (adj : Bool) :
    ∃ p, q = p ++ (sLoop t q adj).2 ∧ List.Sublist p t := by
  induction t generalizing q adj with
  | nil => exact ⟨[], rfl, List.nil_sublist []⟩
  | cons c t ih =>
    cases q with
    | nil => exact ⟨[], rfl, List.nil_sublist _⟩
    | cons qc q' =>
      by_cases h : c = qc
      · obtain ⟨p, hp, hsub⟩ := ih q' true
        refine ⟨qc :: p, ?_, ?_⟩
        · simp only [sLoop, if_pos h]
          rw [List.cons_append, ← hp]
        · rw [← h]
          exact List.Sublist.cons₂ c hsub
      · obtain ⟨p, hp, hsub⟩ := ih (qc :: q') false
        refine ⟨p, ?_, hsub.cons c⟩
        simpa [sLoop, h] using hp

theorem sLoop_complete (t q : List Char) (adj : Bool)
    (h : List.Sublist q t) : (sLoop t q adj).2 = [] := by
  induction t generalizing q adj with
  | nil =>
    rw [List.sublist_nil.mp h]
    rfl
  | cons c t ih =>
    cases q with
    | nil => cases t <;> rfl
    | cons qc q' =>
      by_cases hc : c = qc
      · simp only [sLoop, if_pos hc]
        cases h with
        | cons _ h' =>
          exact ih q' true (((List.sublist_cons_self qc q').trans h'))
        | cons₂ _ h' => exact ih q' true h'
      · simp only [sLoop, if_neg hc]
        cases h with
        | cons _ h' => exact ih (qc :: q') false h'
        | cons₂ _ h' => exact absurd rfl hc

theorem sLoop_sound (t q : List Char) (adj : Bool)
    (h : (sLoop t q adj).2 = []) : List.Sublist q t := by
  obtain ⟨p, hp, hsub⟩ := sLoop_split t q adj
  rw [h, List.append_nil] at hp
  rw [hp]
  exact hsub

end ESL

namespace ESL

theorem occurIdx_replicate_b (n : Nat) :
    occurIdx (List.replicate n 'b' ++ ['a']) ['a'] = some n := by
  induction n with
  | zero => decide
  | succ n ih =>
    rw [List.replicate_succ, List.cons_append, occurIdx,
      if_neg (by simp [startsWith]), ih]
    rfl

theorem toLowerL_replicate_b (n : Nat) :
    toLowerL (List.replicate n 'b' ++ ['a']) = List.replicate n 'b' ++ ['a'] := by
  simp [toLowerL, List.map_replicate,
    show Char.toLower 'b' = 'b' from rfl, show Char.toLower 'a' = 'a' from rfl]

/-- Counterexample for C6 as stated: on a 1001-character target whose query
occurs only at index 1000, the substring tier returns exactly 0 even though
the query is a case-insensitive subsequence (indeed a substring) of the
target, so score 0 does not characterize "no subsequence match". -/
theorem claim6_counterexample :
    fuzzyScore "a".data (List.replicate 1000 'b' ++ ['a']) = 0 ∧
    List.Sublist (toLowerL "a".data)
      (toLowerL (List.replicate 1000 'b' ++ ['a'])) := by
  have hT := toLowerL_replicate_b 1000
  have hq : toLowerL "a".data = ['a'] := rfl
  constructor
  · simp only [fuzzyScore, hq, hT, occurIdx_replicate_b]
    norm_num
  · rw [hq, hT]
    exact List.sublist_append_right _ _

/-- C6 (amended): for every query and target with the target at most 1000
characters long, the score is a non-negative integer and it is 0 exactly when
the query is not a case-insensitive subsequence of the target. -/
theorem claim6_score_zero_iff (q t : List Char) (ht : t.length ≤ 1000) :
    0 ≤ fuzzyScore q t ∧
      (fuzzyScore q t = 0 ↔ ¬ List.Sublist (toLowerL q) (toLowerL t)) := by
  cases hocc : occurIdx (toLowerL t) (toLowerL q) with
  | some i =>
    have hle := occurIdx_some_le _ _ _ hocc
    have hsub := occurIdx_sublist _ _ _ hocc
    have hlent : (toLowerL t).length = t.length := List.length_map _ _
    have hscore : fuzzyScore q t = 1000 - (i : Int) := by
      simp only [fuzzyScore, hocc]
    constructor
    · rw [hscore]
      omega
    · rw [hscore]
      by_cases hq : toLowerL q = []
      · rw [hq, occurIdx_nil_pattern] at hocc
      
        have hi0 : i = 0 := by
          injection hocc with h
          omega
        subst hi0
        constructor
        · intro h0
          norm_num at h0
        · intro hns
          rw [hq] at hns
          exact absurd (List.nil_sublist _) hns
      · have hql : 1 ≤ (toLowerL q).length := List.length_pos.mpr hq
        constructor
        · intro h0
          omega
        · intro hns
          exact absurd hsub hns
  | none =>
    have hq : toLowerL q ≠ [] := by
      intro h
      rw [h, occurIdx_nil_pattern] at hocc
      exact Option.noConfusion hocc
    have hscore : fuzzyScore q t =
        if (sLoop (toLowerL t) (toLowerL q) false).2 = []
        then (sLoop (toLowerL t) (toLowerL q) false).1 else 0 := by
      simp only [fuzzyScore, hocc]
    cases hr : (sLoop (toLowerL t) (toLowerL q) false).2 with
    | nil =>
      have hlow := sLoop_lower (toLowerL t) (toLowerL q) false
      rw [hr] at hlow
      have hql : 1 ≤ (toLowerL q).length := List.length_pos.mpr hq
      have hpos : 0 < (sLoop (toLowerL t) (toLowerL q) false).1 := by
        have h10 : 10 * (((toLowerL q).length : Int)) ≤
            (sLoop (toLowerL t) (toLowerL q) false).1 := by
          simpa using hlow
        omega
      have hsub := sLoop_sound _ _ _ hr
      rw [hscore, hr, if_pos rfl]
      refine ⟨le_of_lt hpos, iff_of_false ?_ (not_not_intro hsub)⟩
      omega
    | cons x xs =>
      have hns : ¬ List.Sublist (toLowerL q) (toLowerL t) := by
        intro hsub
        have := sLoop_complete (toLowerL t) (toLowerL q) false hsub
        rw [hr] at this
        exact List.noConfusion this
      rw [hscore, hr]
      simp only [List.cons_ne_nil, if_neg (List.cons_ne_nil x xs)]
      exact ⟨le_refl 0, iff_of_true rfl hns⟩

/-- Witness for C6's amended statement at a concrete input. -/
theorem claim6_score_zero_iff_witness :
    ("milk".data.length ≤ 1000) ∧
      (0 ≤ fuzzyScore "mlk".data "milk".data ∧
        (fuzzyScore "mlk".data "milk".data = 0 ↔
          ¬ List.Sublist (toLowerL "mlk".data) (toLowerL "milk".data))) :=
  ⟨by decide, claim6_score_zero_iff "mlk".data "milk".data (by decide)⟩

set_option maxRecDepth 8000 in
/-- Counterexample for C5 as stated: the pair ("a", "bbbbbba") matches in the
substring tier with score 994, while the pair (67 a's, 66 a's then "ba")
matches only as a non-contiguous subsequence yet scores 995, so a substring
tier score does not always exceed a subsequence tier score. -/
theorem claim5_counterexample :
    occurIdx (toLowerL "bbbbbba".data) (toLowerL "a".data) = some 6 ∧
    occurIdx (toLowerL (List.replicate 66 'a' ++ ['b', 'a']))
      (toLowerL (List.replicate 67 'a')) = none ∧
    List.Sublist (toLowerL (List.replicate 67 'a'))
      (toLowerL (List.replicate 66 'a' ++ ['b', 'a'])) ∧
    ¬ (fuzzyScore (List.replicate 67 'a') (List.replicate 66 'a' ++ ['b', 'a']) <
        fuzzyScore "a".data "bbbbbba".data) := by
  refine ⟨by decide, by decide, by decide, by decide⟩

/-- C5 (amended): a substring-tier score strictly exceeds a subsequence-tier
score provided the substring occurrence index `i` and the subsequence query
length satisfy `i + 15·|query′| ≤ 1004` (the subsequence tier is bounded by
`15·|query′| − 5` and the substring tier scores `1000 − i`). -/
theorem claim5_tier_order (q t q' t' : List Char) (i : Nat)
    (h1 : occurIdx (toLowerL t) (toLowerL q) = some i)
    (h2 : occurIdx (toLowerL t') (toLowerL q') = none)
    (h3 : (i : Int) + 15 * (q'.length : Int) ≤ 1004) :
    fuzzyScore q' t' < fuzzyScore q t := by
  have hscore : fuzzyScore q t = 1000 - (i : Int) := by
    simp only [fuzzyScore, h1]
  have hq' : toLowerL q' ≠ [] := by
    intro h
    rw [h, occurIdx_nil_pattern] at h2
    exact Option.noConfusion h2
  have hlen : (toLowerL q').length = q'.length := List.length_map _ _
  have hql : 1 ≤ (toLowerL q').length := List.length_pos.mpr hq'
  have hs2 : fuzzyScore q' t' ≤ 15 * (q'.length : Int) - 5 := by
    have hub := sLoop_upper (toLowerL t') (toLowerL q') false
    simp only [fuzzyScore, h2]
    cases hr : (sLoop (toLowerL t') (toLowerL q') false).2 with
    | nil =>
      rcases hub with ⟨hrq, _⟩ | hb
      · rw [hr] at hrq
        exact absurd hrq.symm hq'
      · rw [hr] at hb
        simp only [List.length_nil, Int.ofNat_zero, sub_zero,
          if_neg Bool.false_ne_true] at hb
        rw [if_pos rfl]
        omega
    | cons x xs =>
      rw [if_neg (List.cons_ne_nil x xs)]
      omega
  rw [hscore]
  omega

/-- Witness for C5's amended statement at a concrete input. -/
theorem claim5_tier_order_witness :
    occurIdx (toLowerL "ba".data) (toLowerL "a".data) = some 1 ∧
    occurIdx (toLowerL "axb".data) (toLowerL "ab".data) = none ∧
    ((1 : Nat) : Int) + 15 * (("ab".data.length : Nat) : Int) ≤ 1004 ∧
    fuzzyScore "ab".data "axb".data < fuzzyScore "a".data "ba".data :=
  ⟨by decide, by decide, by decide,
    claim5_tier_order "a".data "ba".data "ab".data "axb".data 1
      (by decide) (by decide) (by decide)⟩

end ESL

namespace ESL

/-! ### Trimming lemmas -/

theorem dropWhile_eq_self_of_head (p : Char → Bool) (l : List Char)
    (h : ∀ x, l.head? = some x → p x = false) : l.dropWhile p = l := by
  cases l with
  | nil => rfl
  | cons c t =>
    rw [List.dropWhile_cons, if_neg]
    simp [h c rfl]

theorem jsTrim_eq_self (l : List Char)
    (h1 : ∀ x, l.head? = some x → isJsSpace x = false)
    (h2 : ∀ x, l.getLast? = some x → isJsSpace x = false) : jsTrim l = l := by
  unfold jsTrim
  rw [dropWhile_eq_self_of_head _ _ h1,
    dropWhile_eq_self_of_head _ _ (fun x hx => h2 x (by rwa [List.head?_reverse] at hx)),
    List.reverse_reverse]

theorem dropWhile_eq_self_of_length (p : Char → Bool) (l : List Char)
    (h : (l.dropWhile p).length = l.length) : l.dropWhile p = l := by
  cases l with
  | nil => rfl
  | cons c t =>
    rw [List.dropWhile_cons] at h ⊢
    by_cases hc : p c = true
    · rw [if_pos hc] at h
      have := (List.dropWhile_sublist (l := t) p).length_le
      simp at h
      omega
    · rw [if_neg hc]

theorem head_false_of_dropWhile_eq_self (p : Char → Bool) (l : List Char)
    (h : l.dropWhile p = l) : ∀ x, l.head? = some x → p x = false := by
  intro x hx
  cases l with
  | nil => exact Option.noConfusion hx
  | cons c t =>
    have hcx : c = x := by injection hx
    rw [List.dropWhile_cons] at h
    by_cases hc : p c = true
    · rw [if_pos hc] at h
      have h1 := (List.dropWhile_sublist (l := t) p).length_le
      have h2 : (t.dropWhile p).length = t.length + 1 := by
        rw [h]
        rfl
      omega
    · rw [← hcx]
      simpa using hc

theorem head_last_not_space (l : List Char) (h : jsTrim l = l) :
    (∀ x, l.head? = some x → isJsSpace x = false) ∧
      (∀ x, l.getLast? = some x → isJsSpace x = false) := by
  have hlen1 : (l.dropWhile isJsSpace).length ≤ l.length :=
    (List.dropWhile_sublist isJsSpace).length_le
  have hlen2 : (jsTrim l).length ≤ (l.dropWhile isJsSpace).length := by
    unfold jsTrim
    rw [List.length_reverse]
    calc ((l.dropWhile isJsSpace).reverse.dropWhile isJsSpace).length
        ≤ (l.dropWhile isJsSpace).reverse.length :=
          (List.dropWhile_sublist isJsSpace).length_le
      _ = (l.dropWhile isJsSpace).length := List.length_reverse _
  have hlen : (jsTrim l).length = l.length := by rw [h]
  have hd : l.dropWhile isJsSpace = l :=
    dropWhile_eq_self_of_length _ _ (by omega)
  have hrev : l.reverse.dropWhile isJsSpace = l.reverse := by
    have h2 : (l.reverse.dropWhile isJsSpace).reverse = l := by
      have := h
      unfold jsTrim at this
      rwa [hd] at this
    have := congrArg List.reverse h2
    rwa [List.reverse_reverse] at this
  refine ⟨head_false_of_dropWhile_eq_self _ _ hd, ?_⟩
  intro x hx
  exact head_false_of_dropWhile_eq_self _ _ hrev x (by rwa [List.head?_reverse])

theorem head?_append_left (l₁ l₂ : List Char) (h : l₁ ≠ []) :
    (l₁ ++ l₂).head? = l₁.head? := by
  cases l₁ with
  | nil => exact absurd rfl h
  | cons c t => rfl

/-! ### Notes-separator lemmas -/

theorem startsWith_append_self (p r : List Char) : startsWith (p ++ r) p = true := by
  induction p with
  | nil => cases r <;> rfl
  | cons c t ih => simp [startsWith, ih]

theorem startsWith_head (l : List Char) (p : Char) (ps : List Char)
    (h : startsWith l (p :: ps) = true) : l.head? = some p := by
  cases l with
  | nil => exact absurd h (by simp [startsWith])
  | cons c t =>
    simp only [startsWith, Bool.and_eq_true, decide_eq_true_eq] at h
    rw [h.1]
    rfl

theorem splitNotes_none (l : List Char) (h : ∀ c ∈ l, c ≠ '/') :
    splitNotes l = none := by
  induction l with
  | nil => rfl
  | cons c t ih =>
    have hs : startsWith (c :: t) noteSep = false := by
      by_contra hcon
      rw [Bool.not_eq_false] at hcon
      simp only [noteSep, startsWith, Bool.and_eq_true, decide_eq_true_eq] at hcon
      obtain ⟨-, hcon⟩ := hcon
      have hhd := startsWith_head _ _ _ hcon
      cases t with
      | nil => exact Option.noConfusion hhd
      | cons d t' =>
        have hd : d = '/' := by injection hhd
        exact h d (List.mem_cons_of_mem c (List.mem_cons_self d t')) hd
    rw [splitNotes, if_neg (by simp [hs]),
      ih (fun x hx => h x (List.mem_cons_of_mem c hx))]

theorem splitNotes_append (X n : List Char) (h : ∀ c ∈ X, c ≠ '/') :
    splitNotes (X ++ noteSep ++ n) = some (X, n) := by
  induction X with
  | nil =>
    have hsw : startsWith (' ' :: '/' :: '/' :: ' ' :: n) noteSep = true := by
      simpa [noteSep] using startsWith_append_self noteSep n
    show splitNotes (' ' :: '/' :: '/' :: ' ' :: n) = some ([], n)
    rw [splitNotes, if_pos hsw]
    rfl
  | cons x X' ih =>
    have hs : startsWith (x :: (X' ++ (noteSep ++ n))) noteSep = false := by
      by_contra hcon
      rw [Bool.not_eq_false] at hcon
      simp only [noteSep, startsWith, Bool.and_eq_true, decide_eq_true_eq] at hcon
      obtain ⟨-, hcon⟩ := hcon
      have hhd := startsWith_head _ _ _ hcon
      cases X' with
      | nil => simp [noteSep] at hhd
      | cons y Y =>
        have hy : y = '/' := by injection hhd
        exact h y (List.mem_cons_of_mem x (List.mem_cons_self y Y)) hy
    show splitNotes (x :: (X' ++ noteSep ++ n)) = some (x :: X', n)
    rw [splitNotes, if_neg (by simp [hs]),
      ih (fun c hc => h c (List.mem_cons_of_mem x hc))]

end ESL

namespace ESL

/-! ### Regex-suffix search lemmas -/

theorem mem_of_getLast?_eq (l : List Char) (a : Char) (h : l.getLast? = some a) :
    a ∈ l := by
  induction l with
  | nil => exact Option.noConfusion h
  | cons c t ih =>
    cases t with
    | nil =>
      have : c = a := by injection h
      simp [this]
    | cons d t' =>
      rw [List.getLast?_cons_cons] at h
      exact List.mem_cons_of_mem c (ih h)

theorem bracketTail_none_of_not_mem (op cl : Char) (good : Char → Bool)
    (l : List Char) (hcl : ∀ c ∈ l, c ≠ cl) :
    bracketTail op cl good l = none := by
  unfold bracketTail
  cases hdw : l.dropWhile isJsSpace with
  | nil => rfl
  | cons c t =>
    show (if c = op ∧ t.getLast? = some cl ∧ t.dropLast ≠ [] ∧
        (∀ x ∈ t.dropLast, good x = true) then some t.dropLast else none) = none
    rw [if_neg]
    rintro ⟨-, h2, -, -⟩
    have hsub : List.Sublist (c :: t) l := by
      rw [← hdw]
      exact List.dropWhile_sublist isJsSpace
    exact hcl cl (hsub.mem (List.mem_cons_of_mem c (mem_of_getLast?_eq t cl h2))) rfl

theorem tailSearch_cons (tail : List Char → Option (List Char)) (c : Char)
    (rest : List Char) :
    tailSearch tail (c :: rest) =
      if isLineTerm c = true then none
      else
        match tail rest with
        | some payload => some ([c], payload)
        | none =>
          match tailSearch tail rest with
          | some (pre, payload) => some (c :: pre, payload)
          | none => none := rfl

theorem tailSearch_bracket_none (op cl : Char) (good : Char → Bool)
    (l : List Char) (hcl : ∀ c ∈ l, c ≠ cl) :
    tailSearch (bracketTail op cl good) l = none := by
  induction l with
  | nil => rfl
  | cons c rest ih =>
    have hbt : bracketTail op cl good rest = none :=
      bracketTail_none_of_not_mem op cl good rest
        (fun x hx => hcl x (List.mem_cons_of_mem c hx))
    by_cases hlt : isLineTerm c = true
    · simp [tailSearch, hlt]
    · simp [tailSearch, hlt, hbt,
        ih (fun x hx => hcl x (List.mem_cons_of_mem c hx))]

theorem dropWhile_append_first (P r : List Char)
    (hex : ∃ x ∈ P, isJsSpace x = false) :
    ∃ c t, (P ++ r).dropWhile isJsSpace = c :: t ∧ c ∈ P ∧ isJsSpace c = false := by
  induction P with
  | nil => simp at hex
  | cons x xs ih =>
    by_cases hx : isJsSpace x = true
    · have hex' : ∃ y ∈ xs, isJsSpace y = false := by
        obtain ⟨y, hy, hyf⟩ := hex
        rcases List.mem_cons.mp hy with hyx | hyxs
        · rw [hyx] at hyf
          rw [hyf] at hx
          exact absurd hx (by simp)
        · exact ⟨y, hyxs, hyf⟩
      obtain ⟨c, t, hdw, hcm, hcf⟩ := ih hex'
      exact ⟨c, t, by rw [List.cons_append, List.dropWhile_cons, if_pos hx, hdw],
        List.mem_cons_of_mem x hcm, hcf⟩
    · refine ⟨x, xs ++ r, ?_, List.mem_cons_self x xs, by simpa using hx⟩
      rw [List.cons_append, List.dropWhile_cons, if_neg hx]

theorem bracketTail_append_none (op cl : Char) (good : Char → Bool)
    (P r : List Char) (hop : ∀ c ∈ P, c ≠ op)
    (hex : ∃ x ∈ P, isJsSpace x = false) :
    bracketTail op cl good (P ++ r) = none := by
  obtain ⟨c, t, hdw, hcm, -⟩ := dropWhile_append_first P r hex
  unfold bracketTail
  rw [hdw]
  show (if c = op ∧ t.getLast? = some cl ∧ t.dropLast ≠ [] ∧
      (∀ x ∈ t.dropLast, good x = true) then some t.dropLast else none) = none
  rw [if_neg]
  rintro ⟨h1, -, -, -⟩
  exact hop c hcm h1

theorem bracketTail_at_sep (op cl : Char) (good : Char → Bool) (body : List Char)
    (hop_ws : isJsSpace op = false) (hbody : body ≠ [])
    (hgood : ∀ c ∈ body, good c = true) :
    bracketTail op cl good (' ' :: op :: (body ++ [cl])) = some body := by
  unfold bracketTail
  have hdw : (' ' :: op :: (body ++ [cl])).dropWhile isJsSpace =
      op :: (body ++ [cl]) := by
    rw [List.dropWhile_cons, if_pos (by decide), List.dropWhile_cons, if_neg (by simp [hop_ws])]
  rw [hdw]
  show (if op = op ∧ (body ++ [cl]).getLast? = some cl ∧
      (body ++ [cl]).dropLast ≠ [] ∧
      (∀ x ∈ (body ++ [cl]).dropLast, good x = true)
      then some (body ++ [cl]).dropLast else none) = some body
  rw [if_pos]
  · rw [List.dropLast_concat]
  · refine ⟨rfl, List.getLast?_concat body, ?_, ?_⟩
    · rw [List.dropLast_concat]
      exact hbody
    · rw [List.dropLast_concat]
      exact hgood

theorem tailSearch_append (op cl : Char) (good : Char → Bool)
    (P body : List Char)
    (hop_ws : isJsSpace op = false)
    (hP : P ≠ [])
    (hPlast : ∀ x, P.getLast? = some x → isJsSpace x = false)
    (hPop : ∀ c ∈ P, c ≠ op)
    (hPlt : ∀ c ∈ P, isLineTerm c = false)
    (hbody : body ≠ [])
    (hgood : ∀ c ∈ body, good c = true) :
    tailSearch (bracketTail op cl good) (P ++ ' ' :: op :: (body ++ [cl])) =
      some (P, body) := by
  induction P with
  | nil => exact absurd rfl hP
  | cons c P' ih =>
    have hclt : isLineTerm c = false := hPlt c (List.mem_cons_self c P')
    show tailSearch (bracketTail op cl good)
      (c :: (P' ++ ' ' :: op :: (body ++ [cl]))) = some (c :: P', body)
    cases hP' : P' with
    | nil =>
      have hsep := bracketTail_at_sep op cl good body hop_ws hbody hgood
      simp [tailSearch, hclt, hsep]
    | cons d P'' =>
      subst hP'
      have hlast' : ∀ x, (d :: P'').getLast? = some x → isJsSpace x = false := by
        intro x hx
        apply hPlast x
        rw [List.getLast?_cons_cons]
        exact hx
      have hexists : ∃ x ∈ d :: P'', isJsSpace x = false := by
        refine ⟨(d :: P'').getLast (List.cons_ne_nil d P''), ?_, ?_⟩
        · exact mem_of_getLast?_eq _ _ (List.getLast?_eq_getLast _ _)
        · exact hlast' _ (List.getLast?_eq_getLast _ _)
      have hbt : bracketTail op cl good
          (d :: (P'' ++ ' ' :: op :: (body ++ [cl]))) = none :=
        bracketTail_append_none op cl good (d :: P'') _
          (fun x hx => hPop x (List.mem_cons_of_mem c hx))
          hexists
      have hrec : tailSearch (bracketTail op cl good)
          (d :: (P'' ++ ' ' :: op :: (body ++ [cl]))) = some (d :: P'', body) :=
        ih (List.cons_ne_nil d P'') hlast'
          (fun x hx => hPop x (List.mem_cons_of_mem c hx))
          (fun x hx => hPlt x (List.mem_cons_of_mem c hx))
      show tailSearch (bracketTail op cl good)
        (c :: (d :: (P'' ++ ' ' :: op :: (body ++ [cl])))) =
          some (c :: d :: P'', body)
      rw [tailSearch_cons, if_neg (by simp [hclt]), hbt, hrec]

end ESL

namespace ESL

/-! ### Decimal rendering lemmas -/

theorem digitChar_mem_digList (n : Nat) : digitChar n ∈ digList := by
  unfold digitChar
  split <;> simp [digList]

theorem natToDecAux_mem (fuel n : Nat) :
    ∀ c ∈ natToDecAux fuel n, c ∈ digList := by
  induction fuel generalizing n with
  | zero => simp [natToDecAux]
  | succ f ih =>
    intro c hc
    rw [natToDecAux] at hc
    by_cases h : n < 10
    · rw [if_pos h] at hc
      simp only [List.mem_singleton] at hc
      rw [hc]
      exact digitChar_mem_digList n
    · rw [if_neg h] at hc
      rcases List.mem_append.mp hc with h1 | h2
      · exact ih (n / 10) c h1
      · simp only [List.mem_singleton] at h2
        rw [h2]
        exact digitChar_mem_digList (n % 10)

theorem natToDec_mem (n : Nat) : ∀ c ∈ natToDec n, c ∈ digList :=
  natToDecAux_mem (n + 1) n

theorem digList_props : ∀ c ∈ digList,
    isJsSpace c = false ∧ isLineTerm c = false ∧ Char.isDigit c = true ∧
    c ≠ '(' ∧ c ≠ ')' ∧ c ≠ '[' ∧ c ≠ ']' ∧ c ≠ '/' := by decide

theorem natToDecAux_ne_nil (fuel n : Nat) (h : n < fuel) :
    natToDecAux fuel n ≠ [] := by
  cases fuel with
  | zero => omega
  | succ f =>
    rw [natToDecAux]
    by_cases h10 : n < 10
    · rw [if_pos h10]
      exact List.cons_ne_nil _ _
    · rw [if_neg h10]
      simp

theorem natToDec_ne_nil (n : Nat) : natToDec n ≠ [] :=
  natToDecAux_ne_nil (n + 1) n (by omega)

theorem decValue_append_digit (ds : List Char) (c : Char) :
    decValue (ds ++ [c]) = 10 * decValue ds + decDigit c := by
  unfold decValue
  rw [List.foldl_append]
  rfl

theorem decDigit_digitChar (d : Nat) (h : d < 10) :
    decDigit (digitChar d) = d := by
  interval_cases d <;> rfl

theorem natToDecAux_decValue (fuel n : Nat) (h : n < fuel) :
    decValue (natToDecAux fuel n) = n := by
  induction fuel generalizing n with
  | zero => omega
  | succ f ih =>
    rw [natToDecAux]
    by_cases h10 : n < 10
    · rw [if_pos h10]
      show 10 * 0 + decDigit (digitChar n) = n
      rw [decDigit_digitChar n h10]
      omega
    · rw [if_neg h10, decValue_append_digit]
      have hdiv : n / 10 < n := Nat.div_lt_self (by omega) (by omega)
      rw [ih (n / 10) (by omega), decDigit_digitChar (n % 10) (by omega)]
      omega

theorem decValue_natToDec (n : Nat) : decValue (natToDec n) = n :=
  natToDecAux_decValue (n + 1) n (by omega)

end ESL

namespace ESL

/-! ### Codec round trip -/

theorem parse_format_notes (E1 P1 nameR : List Char) (qtyR : Int)
    (notes category : List Char)
    (hE1ne : E1 ≠ [])
    (hE1head : ∀ x, E1.head? = some x → isJsSpace x = false)
    (hE1last : ∀ x, E1.getLast? = some x → isJsSpace x = false)
    (hE1slash : ∀ c ∈ E1, c ≠ '/')
    (h2 : stageCat E1 = (P1, category))
    (h3 : stageQty P1 = (nameR, qtyR))
    (htnt : jsTrim notes = notes) :
    parseSummary (if notes ≠ [] then E1 ++ noteSep ++ notes else E1) =
      ⟨nameR, qtyR, notes, category⟩ := by
  have hE1trim : jsTrim E1 = E1 := jsTrim_eq_self E1 hE1head hE1last
  by_cases hnotes : notes = []
  · rw [if_neg (by simp [hnotes])]
    have h1 : stageNotes E1 = (E1, notes) := by
      unfold stageNotes
      rw [splitNotes_none E1 hE1slash, hnotes]
    simp only [parseSummary, hE1trim, h1, h2, h3]
  · rw [if_pos hnotes]
    have h1 : stageNotes (E1 ++ noteSep ++ notes) = (E1, notes) := by
      unfold stageNotes
      rw [splitNotes_append E1 notes hE1slash]
      show (jsTrim E1, jsTrim notes) = (E1, notes)
      rw [hE1trim, htnt]
    have hE : jsTrim (E1 ++ noteSep ++ notes) = E1 ++ noteSep ++ notes := by
      apply jsTrim_eq_self
      · intro x hx
        rw [head?_append_left _ _ (by simp [hE1ne]),
          head?_append_left _ _ hE1ne] at hx
        exact hE1head x hx
      · intro x hx
        rw [List.getLast?_append_of_ne_nil _ hnotes] at hx
        exact (head_last_not_space notes htnt).2 x hx
    simp only [parseSummary, hE, h1, h2, h3]

theorem parse_format_tail (P1 nameR : List Char) (qtyR : Int)
    (notes category : List Char)
    (hP1ne : P1 ≠ [])
    (hP1head : ∀ x, P1.head? = some x → isJsSpace x = false)
    (hP1last : ∀ x, P1.getLast? = some x → isJsSpace x = false)
    (hP1mem : ∀ c ∈ P1, c ≠ '[' ∧ c ≠ ']' ∧ c ≠ '/' ∧ isLineTerm c = false)
    (h3 : stageQty P1 = (nameR, qtyR))
    (htnt : jsTrim notes = notes)
    (htc : jsTrim category = category)
    (hsfc : specialFree category) :
    parseSummary
      (if notes ≠ []
        then (if category ≠ [] then P1 ++ ' ' :: '[' :: (category ++ [']'])
          else P1) ++ noteSep ++ notes
        else (if category ≠ [] then P1 ++ ' ' :: '[' :: (category ++ [']'])
          else P1)) =
      ⟨nameR, qtyR, notes, category⟩ := by
  have hP1trim : jsTrim P1 = P1 := jsTrim_eq_self P1 hP1head hP1last
  by_cases hcat : category = []
  · have hif : (if category ≠ [] then P1 ++ ' ' :: '[' :: (category ++ [']'])
        else P1) = P1 := by
      rw [if_neg (by simp [hcat])]
    rw [hif]
    have h2 : stageCat P1 = (P1, category) := by
      unfold stageCat catMatch
      rw [tailSearch_bracket_none '[' ']' _ P1 (fun c hc => (hP1mem c hc).2.1),
        hcat]
    exact parse_format_notes P1 P1 nameR qtyR notes category hP1ne hP1head
      hP1last (fun c hc => (hP1mem c hc).2.2.1) h2 h3 htnt
  · have hif : (if category ≠ [] then P1 ++ ' ' :: '[' :: (category ++ [']'])
        else P1) = P1 ++ ' ' :: '[' :: (category ++ [']']) := by
      rw [if_pos hcat]
    rw [hif]
    have hE1ne : P1 ++ ' ' :: '[' :: (category ++ [']']) ≠ ([] : List Char) := by
      simp [hP1ne]
    have hE1head : ∀ x, (P1 ++ ' ' :: '[' :: (category ++ [']'])).head? = some x →
        isJsSpace x = false := by
      intro x hx
      rw [head?_append_left _ _ hP1ne] at hx
      exact hP1head x hx
    have hE1last : ∀ x, (P1 ++ ' ' :: '[' :: (category ++ [']'])).getLast? = some x →
        isJsSpace x = false := by
      intro x hx
      rw [List.getLast?_append_of_ne_nil _ (by simp)] at hx
      have hl : (' ' :: '[' :: (category ++ [']'])).getLast? = some ']' :=
        List.getLast?_concat (' ' :: '[' :: category)
      rw [hl] at hx
      have hx' : x = ']' := by injection hx with h; exact h.symm
      rw [hx']
      decide
    have hE1slash : ∀ c ∈ P1 ++ ' ' :: '[' :: (category ++ [']']), c ≠ '/' := by
      intro c hc
      rcases List.mem_append.mp hc with hcp | hcq
      · exact (hP1mem c hcp).2.2.1
      · simp only [List.mem_cons, List.mem_append, List.mem_nil_iff,
          or_false] at hcq
        rcases hcq with rfl | rfl | hcc | rfl
        · decide
        · decide
        · exact (hsfc c hcc).2.2.2.2
        · decide
    have h2 : stageCat (P1 ++ ' ' :: '[' :: (category ++ [']'])) =
        (P1, category) := by
      unfold stageCat catMatch
      rw [tailSearch_append '[' ']' (fun c => c ≠ ']') P1 category (by decide)
        hP1ne hP1last (fun c hc => (hP1mem c hc).1)
        (fun c hc => (hP1mem c hc).2.2.2) hcat
        (fun c hc => by simpa using (hsfc c hc).2.2.2.1)]
      show (jsTrim P1, jsTrim category) = (P1, category)
      rw [hP1trim, htc]
    exact parse_format_notes _ P1 nameR qtyR notes category hE1ne hE1head
      hE1last hE1slash h2 h3 htnt

end ESL

namespace ESL

theorem roundtrip_parse_format (name : List Char) (qty : Int)
    (notes category : List Char) (h : GoodFields name qty notes category) :
    parseSummary (formatSummary name qty notes category) =
      ⟨name, qty, notes, category⟩ := by
  obtain ⟨hne, htn, htnt, htc, hsf, hsfc, hlt, hq⟩ := h
  obtain ⟨hnh, hnl⟩ := head_last_not_space name htn
  by_cases hq1 : (1 : Int) < qty
  · have hdsmem := natToDec_mem qty.toNat
    have hfs : formatSummary name qty notes category =
        (if notes ≠ []
          then (if category ≠ [] then
              (name ++ ' ' :: '(' :: (natToDec qty.toNat ++ [')'])) ++
                ' ' :: '[' :: (category ++ [']'])
            else (name ++ ' ' :: '(' :: (natToDec qty.toNat ++ [')']))) ++
              noteSep ++ notes
          else (if category ≠ [] then
              (name ++ ' ' :: '(' :: (natToDec qty.toNat ++ [')'])) ++
                ' ' :: '[' :: (category ++ [']'])
            else (name ++ ' ' :: '(' :: (natToDec qty.toNat ++ [')'])))) := by
      simp only [formatSummary, if_pos hq1]
    rw [hfs]
    have hP1ne : name ++ ' ' :: '(' :: (natToDec qty.toNat ++ [')']) ≠
        ([] : List Char) := by simp [hne]
    have hP1head : ∀ x,
        (name ++ ' ' :: '(' :: (natToDec qty.toNat ++ [')'])).head? = some x →
        isJsSpace x = false := by
      intro x hx
      rw [head?_append_left _ _ hne] at hx
      exact hnh x hx
    have hP1last : ∀ x,
        (name ++ ' ' :: '(' :: (natToDec qty.toNat ++ [')'])).getLast? = some x →
        isJsSpace x = false := by
      intro x hx
      rw [List.getLast?_append_of_ne_nil _ (by simp)] at hx
      have hl : (' ' :: '(' :: (natToDec qty.toNat ++ [')'])).getLast? =
          some ')' := List.getLast?_concat (' ' :: '(' :: natToDec qty.toNat)
      rw [hl] at hx
      have hx' : x = ')' := by injection hx with h; exact h.symm
      rw [hx']
      decide
    have hP1mem : ∀ c ∈ name ++ ' ' :: '(' :: (natToDec qty.toNat ++ [')']),
        c ≠ '[' ∧ c ≠ ']' ∧ c ≠ '/' ∧ isLineTerm c = false := by
      intro c hc
      rcases List.mem_append.mp hc with hcn | hcq
      · exact ⟨(hsf c hcn).2.2.1, (hsf c hcn).2.2.2.1, (hsf c hcn).2.2.2.2,
          hlt c hcn⟩
      · simp only [List.mem_cons, List.mem_append, List.mem_nil_iff,
          or_false] at hcq
        rcases hcq with rfl | rfl | hcd | rfl
        · refine ⟨by decide, by decide, by decide, by decide⟩
        · refine ⟨by decide, by decide, by decide, by decide⟩
        · have hp := digList_props c (hdsmem c hcd)
          exact ⟨hp.2.2.2.2.2.1, hp.2.2.2.2.2.2.1, hp.2.2.2.2.2.2.2, hp.2.1⟩
        · refine ⟨by decide, by decide, by decide, by decide⟩
    have h3 : stageQty (name ++ ' ' :: '(' :: (natToDec qty.toNat ++ [')'])) =
        (name, qty) := by
      unfold stageQty qtyMatch
      rw [tailSearch_append '(' ')' (fun c => c.isDigit) name
        (natToDec qty.toNat) (by decide) hne hnl (fun c hc => (hsf c hc).1)
        hlt (natToDec_ne_nil _)
        (fun c hc => (digList_props c (hdsmem c hc)).2.2.1)]
      show (jsTrim name, (decValue (natToDec qty.toNat) : Int)) = (name, qty)
      rw [htn, decValue_natToDec, Int.toNat_of_nonneg (by omega)]
    exact parse_format_tail _ name qty notes category hP1ne hP1head hP1last
      hP1mem h3 htnt htc hsfc
  · have hfs : formatSummary name qty notes category =
        (if notes ≠ []
          then (if category ≠ [] then name ++ ' ' :: '[' :: (category ++ [']'])
            else name) ++ noteSep ++ notes
          else (if category ≠ [] then name ++ ' ' :: '[' :: (category ++ [']'])
            else name)) := by
      simp only [formatSummary, if_neg hq1]
    rw [hfs]
    have hP1mem : ∀ c ∈ name, c ≠ '[' ∧ c ≠ ']' ∧ c ≠ '/' ∧
        isLineTerm c = false := fun c hc =>
      ⟨(hsf c hc).2.2.1, (hsf c hc).2.2.2.1, (hsf c hc).2.2.2.2, hlt c hc⟩
    have h3 : stageQty name = (name, qty) := by
      unfold stageQty qtyMatch
      rw [tailSearch_bracket_none '(' ')' _ name (fun c hc => (hsf c hc).2.1)]
      have h1 : qty = 1 := by omega
      rw [h1]
    exact parse_format_tail name name qty notes category hne hnh hnl hP1mem h3
      htnt htc hsfc

end ESL

namespace ESL

/-- C1 (amended): decoding the encoded summary reproduces the original fields
for every record whose name is non-empty, whose name and category contain none
of the characters `(` `)` `[` `]` `/` and no line terminator occurs in the
name, whose string fields are stable under trimming, and whose quantity is at
least 1; a quantity of 1 is not rendered and is recovered through the
decoder's default. -/
theorem claim1_roundtrip (name : List Char) (qty : Int)
    (notes category : List Char) (h : GoodFields name qty notes category) :
    parseSummary (formatSummary name qty notes category) =
      ⟨name, qty, notes, category⟩ :=
  roundtrip_parse_format name qty notes category h

/-- Witness for C1's amended statement at the spec's concrete record. -/
theorem claim1_roundtrip_witness :
    GoodFields "Bread".data 3 "whole grain".data "Bakery".data ∧
    parseSummary (formatSummary "Bread".data 3 "whole grain".data
      "Bakery".data) =
      ⟨"Bread".data, 3, "whole grain".data, "Bakery".data⟩ :=
  ⟨by decide, claim1_roundtrip "Bread".data 3 "whole grain".data "Bakery".data
    (by decide)⟩

/-- Counterexample for C1 as stated: the name "a " (with a trailing space)
contains none of the delimiter tokens `" // "`, `"("`, `")"`, `"["`, `"]"`,
yet decoding the encoded record does not reproduce it — the decoder trims the
space away. -/
theorem claim1_counterexample :
    (∀ c ∈ ['a', ' '], c ≠ '(' ∧ c ≠ ')' ∧ c ≠ '[' ∧ c ≠ ']' ∧ c ≠ '/') ∧
    parseSummary (formatSummary ['a', ' '] 2 [] []) = ⟨['a'], 2, [], []⟩ ∧
    parseSummary (formatSummary ['a', ' '] 2 [] []) ≠ ⟨['a', ' '], 2, [], []⟩ := by
  refine ⟨by decide, by decide, by decide⟩

/-- C7 (amended): re-encoding the decoding of an encoded summary reproduces
the summary exactly, for every summary produced by the encoder from a record
satisfying the same well-formedness conditions as the round-trip property
(non-empty trim-stable name, no structural characters in name or category,
quantity at least 1). -/
theorem claim7_encode_idempotent (name : List Char) (qty : Int)
    (notes category : List Char) (h : GoodFields name qty notes category) :
    formatSummary (parseSummary (formatSummary name qty notes category)).name
      (parseSummary (formatSummary name qty notes category)).qty
      (parseSummary (formatSummary name qty notes category)).notes
      (parseSummary (formatSummary name qty notes category)).category =
      formatSummary name qty notes category := by
  rw [roundtrip_parse_format name qty notes category h]

/-- Witness for C7's amended statement at a concrete input. -/
theorem claim7_encode_idempotent_witness :
    GoodFields "Milk".data 2 [] "Dairy".data ∧
    formatSummary (parseSummary (formatSummary "Milk".data 2 [] "Dairy".data)).name
      (parseSummary (formatSummary "Milk".data 2 [] "Dairy".data)).qty
      (parseSummary (formatSummary "Milk".data 2 [] "Dairy".data)).notes
      (parseSummary (formatSummary "Milk".data 2 [] "Dairy".data)).category =
      formatSummary "Milk".data 2 [] "Dairy".data :=
  ⟨by decide, claim7_encode_idempotent "Milk".data 2 [] "Dairy".data (by decide)⟩

/-- Counterexample for C7 as stated: the string produced by the encoder from
the name "a " (trailing space) and quantity 2 is not reproduced by re-encoding
its decoding — the double space collapses to a single one. -/
theorem claim7_counterexample :
    formatSummary (parseSummary (formatSummary ['a', ' '] 2 [] [])).name
      (parseSummary (formatSummary ['a', ' '] 2 [] [])).qty
      (parseSummary (formatSummary ['a', ' '] 2 [] [])).notes
      (parseSummary (formatSummary ['a', ' '] 2 [] [])).category ≠
      formatSummary ['a', ' '] 2 [] [] := by decide

end ESL
